import Mathlib

/-!
# md_to_html_generator: the per-file pipeline of the static site generator

A shallow embedding of `internal/processor/processor.go` (`ProcessFile`) and of the
walk callback of `cmd/ssg/main.go`, followed by theorems about front-matter
extraction, output paths and error handling.

Conventions of the embedding.

* A Go `string` / `[]byte` is a list of bytes (`GoString`).  `str` gives the UTF-8
  bytes of a literal of the source.
* Go `int` indices are `Int`; `strings.Index` answers `-1` when nothing is found.
  Lengths of in-memory strings are far below `2^63`, so no index arithmetic of
  the program overflows and no reduction modulo `2^64` is applied.
* A slice expression whose bounds are out of range panics; the slice helpers
  answer `none` there and a run of the program that panics ends in `panic`
  (`Step.panic`, `Ret.panic`).
* Library calls that touch the outside world (`os.ReadFile`, `yaml.Unmarshal`,
  `markdown.ToHTML`, `template.ParseFiles`, `os.MkdirAll`, `os.Create`,
  `ExecuteTemplate`) are fields of a `World`; every call made is recorded, in
  order, in a list of `Effect`s.
* Paths follow the Unix flavour of `path/filepath` (separator `/`, no volume
  names).
-/

namespace SSG

/-- Bytes of a Go `string` or `[]byte`. -/
abbrev GoString := List UInt8

/-- UTF-8 bytes of a string literal of the source. -/
def str (s : String) : GoString := s.data.flatMap String.utf8EncodeChar

/-! ## `strings.Index` and slice expressions -/

/-- Position of the first occurrence of `sep` in a string, if any. -/
def indexNat (sep : GoString) : GoString → Option Nat
  | [] => if sep = [] then some 0 else none
  | c :: t =>
    if sep <+: (c :: t) then some 0
    else match indexNat sep t with
      | some i => some (i + 1)
      | none => none

/-- Go `strings.Index(s, sep)`: index of the first instance of `sep` in `s`, or `-1`. -/
def Index (s sep : GoString) : Int :=
  match indexNat sep s with
  | some i => (i : Int)
  | none => -1

/-- Go `s[lo:]`; `none` stands for the panic "slice bounds out of range". -/
def sliceFrom (s : GoString) (lo : Int) : Option GoString :=
  if 0 ≤ lo ∧ lo ≤ (s.length : Int) then some (s.drop lo.toNat) else none

/-- Go `s[lo:hi]`; `none` stands for the panic "slice bounds out of range". -/
def slice (s : GoString) (lo hi : Int) : Option GoString :=
  if 0 ≤ lo ∧ lo ≤ hi ∧ hi ≤ (s.length : Int) then some ((s.take hi.toNat).drop lo.toNat)
  else none

/-! ## Front matter extraction (`ProcessFile`, part A) -/

/-- Values of `yamlMetadata` and `markdownContent` after part A, with the lines logged. -/
structure FrontMatter where
  yamlMetadata : GoString
  markdownContent : GoString
  logs : List GoString
deriving DecidableEq

/-- Text of the warning logged when no front matter is found. -/
def warning (filePath : GoString) : GoString :=
  str "Avertissement: Pas de Front Matter trouvé dans " ++ filePath ++ str ". Titre par défaut."

/-- Part A of `ProcessFile`: locate the two `---` delimiters and split the document.
`none` is a run-time panic raised by one of the slice expressions. -/
def extractFrontMatter (filePath content : GoString) : Option FrontMatter :=
  let yamlStart := Index content (str "---")
  (sliceFrom content (yamlStart + 3)).bind fun rest =>
  let yamlEnd := Index rest (str "---")
  if yamlStart = 0 ∧ yamlEnd > 0 then
    (slice content (yamlStart + 3) (yamlEnd + 3)).bind fun yamlMetadata =>
    (sliceFrom content (yamlEnd + 6)).bind fun markdownContent =>
    some ⟨yamlMetadata, markdownContent, []⟩
  else
    some ⟨[], content, [warning filePath]⟩

/-! ## Metadata decoding (`ProcessFile`, step 2) -/

/-- Front matter data: Go `type Metadata struct { Title string }`; the zero value has an
empty title. -/
structure Metadata where
  Title : GoString
deriving DecidableEq

/-- Data injected into the templates: Go `type PageData struct`. -/
structure PageData where
  Metadata : Metadata
  Content : GoString
deriving DecidableEq

/-- Calls that reach outside of the program, as they are recorded during a run. -/
inductive Effect where
  | readFile (name : GoString)
  | logPrintf (line : GoString)
  | yamlUnmarshal (input : GoString)
  | markdownToHTML (input : GoString)
  | parseFiles (files : List GoString)
  | mkdirAll (path : GoString)
  | create (name : GoString)
  | executeTemplate (name : GoString) (data : PageData)
  | close (name : GoString)
deriving DecidableEq

/-- Answers of the library calls of one run.  An `error` is represented by the text of
its `Error()` method; `none` is a `nil` error.  `ExecuteTemplate` receives the parsed
files and the output file by name. -/
structure World where
  ReadFile : GoString → Except GoString GoString
  Unmarshal : GoString → Except GoString Metadata
  ToHTML : GoString → GoString
  ParseFiles : List GoString → Option GoString
  MkdirAll : GoString → Option GoString
  Create : GoString → Option GoString
  ExecuteTemplate : List GoString → GoString → GoString → PageData → Option GoString

/-- How a step of the pipeline ends: with a value, with a returned `error`, or in a
run-time panic. -/
inductive Step (α : Type) where
  | ok (a : α)
  | err (msg : GoString)
  | panic
deriving DecidableEq

/-- Step 2 of `ProcessFile`: decode `yamlMetadata` into a zero `Metadata` when it is not
the empty string. -/
def decodeMetadata (w : World) (filePath yamlMetadata : GoString) :
    List Effect × Step Metadata :=
  if yamlMetadata ≠ [] then
    match w.Unmarshal yamlMetadata with
    | .error e =>
      ([.yamlUnmarshal yamlMetadata],
        .err (str "erreur de parsing YAML dans " ++ filePath ++ str ": " ++ e))
    | .ok metadata => ([.yamlUnmarshal yamlMetadata], .ok metadata)
  else ([], .ok ⟨[]⟩)

/-- The extraction step of `ProcessFile` (part A and step 2): from the document read to
the pair of `metadata` and `markdownContent`. -/
def extraction (w : World) (filePath content : GoString) :
    List Effect × Step (Metadata × GoString) :=
  match extractFrontMatter filePath content with
  | none => ([], .panic)
  | some fm =>
    match decodeMetadata w filePath fm.yamlMetadata with
    | (tr, .ok metadata) => (fm.logs.map .logPrintf ++ tr, .ok (metadata, fm.markdownContent))
    | (tr, .err e) => (fm.logs.map .logPrintf ++ tr, .err e)
    | (tr, .panic) => (fm.logs.map .logPrintf ++ tr, .panic)

/-! ## `path/filepath` and `strings.Replace` -/

/-- Elements of a path between the separators `/`. -/
def splitElems : GoString → List GoString
  | [] => [[]]
  | c :: t =>
    if c = 47 then [] :: splitElems t
    else match splitElems t with
      | [] => [[c]]
      | e :: es => (c :: e) :: es

/-- Elements joined with the separator `/` (`strings.Join(elem, "/")`). -/
def joinSlash (elems : List GoString) : GoString := [(47 : UInt8)].intercalate elems

/-- A name of a directory entry, as `filepath.Walk` appends them to the root: not empty,
without `/`, and neither `.` nor `..`. -/
def walkElem (n : GoString) : Prop :=
  n ≠ [] ∧ (47 : UInt8) ∉ n ∧ n ≠ str "." ∧ n ≠ str ".."

/-- One element read by `filepath.Clean`; `out` holds the elements kept so far, last
first.  Empty and `.` elements are dropped, `..` removes the element before it when
there is one to remove, is kept on a relative path and dropped at the root. -/
def cleanStep (rooted : Bool) (out : List GoString) (e : GoString) : List GoString :=
  if e = [] ∨ e = str "." then out
  else if e = str ".." then
    match out with
    | top :: below =>
      if top ≠ str ".." then below else if rooted then out else e :: out
    | [] => if rooted then out else e :: out
  else e :: out

/-- Go `filepath.Clean`: the shortest path name equivalent to `path` by purely lexical
processing. -/
def Clean (path : GoString) : GoString :=
  if path = [] then str "."
  else
    let rooted := path.head? = some 47
    let out := (splitElems path).foldl (cleanStep rooted) []
    let body := joinSlash out.reverse
    if rooted then 47 :: body else if body = [] then str "." else body

/-- Go `filepath.Join`: joins the elements from the first non-empty one on with `/`
and cleans the result; the empty string when all elements are empty. -/
def Join (elem : List GoString) : GoString :=
  match elem.dropWhile (fun e => e.isEmpty) with
  | [] => []
  | es => Clean (joinSlash es)

/-- The loop of `filepath.Rel` that skips the leading elements `base` and `targ` share.
Answers `base[b0:]` and `targ[t0:]` as they are when the loop is left: at the first
elements that differ, or where one of the two paths is used up. -/
def relLoop : Nat → GoString → GoString → GoString × GoString
  | 0, b, t => (b, t)
  | fuel + 1, b, t =>
    if b = [] ∨ t = [] then (b, t)
    else
      let be := b.takeWhile (fun c => c ≠ 47)
      let te := t.takeWhile (fun c => c ≠ 47)
      if te ≠ be then (b, t)
      else relLoop fuel (b.drop (be.length + 1)) (t.drop (te.length + 1))

/-- Go `filepath.Rel`: a relative path that is lexically equivalent to `targpath` when
joined to `basepath`.  `none` is an error (its text is not kept, `ProcessFile` discards
it): one path is rooted and the other is not, or the first element of `base` that
`targ` does not share is `..`, which cannot be undone lexically. -/
def Rel (basepath targpath : GoString) : Option GoString :=
  let base := Clean basepath
  let targ := Clean targpath
  if targ = base then some (str ".")
  else
    let base := if base = str "." then [] else base
    if (base.head? = some 47) ≠ (targ.head? = some 47) then none
    else
      match relLoop (base.length + 1) base targ with
      | (bRest, tRest) =>
        if bRest.takeWhile (fun c => c ≠ 47) = str ".." then none
        else if bRest ≠ [] then
          some (str ".." ++ (List.replicate (bRest.count 47) (str "/..")).flatten
            ++ (if tRest ≠ [] then 47 :: tRest else []))
        else some tRest

/-- Go `filepath.Dir`: all but the last element of the path, cleaned. -/
def Dir (path : GoString) : GoString :=
  Clean (path.reverse.dropWhile (fun c => c ≠ 47)).reverse

/-- Backwards scan of `filepath.Ext` over the reversed path; `acc` is the suffix read. -/
def extScan : GoString → GoString → GoString
  | [], _ => []
  | c :: r, acc =>
    if c = 47 then [] else if c = 46 then c :: acc else extScan r (c :: acc)

/-- Go `filepath.Ext`: the suffix beginning at the final dot in the final element of
the path, empty if there is no dot. -/
def Ext (path : GoString) : GoString := extScan path.reverse []

/-- Go `strings.Replace(s, old, new, n)` for a non-empty `old` and `n ≥ 0`: the first
`n` non-overlapping instances of `old` are replaced by `new`. -/
def Replace (s old new : GoString) : Nat → GoString
  | 0 => s
  | n + 1 =>
    match indexNat old s with
    | none => s
    | some i => s.take i ++ new ++ Replace (s.drop (i + old.length)) old new n
termination_by structural n => n

/-! ## Rendering and writing (`ProcessFile`, parts B to D) -/

/-- Part D of `ProcessFile`: the path of the page written for `filePath`. -/
def outputPath (filePath outputDir : GoString) : GoString :=
  let relPath := (Rel (str "content") filePath).getD []
  let outPath := Join [outputDir, relPath]
  Replace outPath (str ".md") (str ".html") 1

/-- How a Go function whose result is an `error` ends. -/
inductive Ret where
  | nil
  | err (msg : GoString)
  | panic
deriving DecidableEq

/-- Parts B, C and D of `ProcessFile`: convert, load the templates, write the page. -/
def render (w : World) (filePath templateDir outputDir : GoString) (metadata : Metadata)
    (markdownContent : GoString) : List Effect × Ret :=
  let htmlContent := w.ToHTML markdownContent
  let files := [Join [templateDir, str "base.html"], Join [templateDir, str "page.html"]]
  let tr := [Effect.markdownToHTML markdownContent, Effect.parseFiles files]
  match w.ParseFiles files with
  | some e => (tr, .err (str "erreur de parsing des modèles: " ++ e))
  | none =>
    let data : PageData := ⟨metadata, htmlContent⟩
    let outPath := outputPath filePath outputDir
    match w.MkdirAll (Dir outPath) with
    | some e => (tr ++ [.mkdirAll (Dir outPath)], .err e)
    | none =>
      match w.Create outPath with
      | some e =>
        (tr ++ [.mkdirAll (Dir outPath), .create outPath],
          .err (str "erreur de création de " ++ outPath ++ str ": " ++ e))
      | none =>
        let tr := tr ++ [.mkdirAll (Dir outPath), .create outPath,
          .executeTemplate (str "base") data]
        match w.ExecuteTemplate files outPath (str "base") data with
        | some e =>
          (tr ++ [.close outPath], .err (str "erreur d\x27exécution du modèle: " ++ e))
        | none =>
          (tr ++ [.logPrintf (str "Généré avec succès: " ++ outPath ++ str " (Titre: "
              ++ metadata.Title ++ str ")"), .close outPath], .nil)

/-- Go `ProcessFile(filePath, templateDir, outputDir)`: the effects of the run, in
order, and the way it ends. -/
def ProcessFile (w : World) (filePath templateDir outputDir : GoString) :
    List Effect × Ret :=
  match w.ReadFile filePath with
  | .error e =>
    ([.readFile filePath], .err (str "erreur de lecture de " ++ filePath ++ str ": " ++ e))
  | .ok contentBytes =>
    match extraction w filePath contentBytes with
    | (tr, .panic) => (.readFile filePath :: tr, .panic)
    | (tr, .err e) => (.readFile filePath :: tr, .err e)
    | (tr, .ok (metadata, markdownContent)) =>
      match render w filePath templateDir outputDir metadata markdownContent with
      | (tr2, r) => (.readFile filePath :: tr ++ tr2, r)

/-! ## The walk callback of `main` -/

/-- The part of `os.FileInfo` the callback reads. -/
structure FileInfo where
  IsDir : Bool
deriving DecidableEq

/-- One call of the function `main` hands to `filepath.Walk`. -/
structure WalkCall where
  /-- Arguments of the call of `ProcessFile`, when it was made. -/
  processed : Option (GoString × GoString × GoString)
  effects : List Effect
  ret : Ret
deriving DecidableEq

/-- The callback of `filepath.Walk` in `main`; `err` is the traversal error (`none` for
`nil`). -/
def walkFn (w : World) (templateDir outputDir path : GoString) (info : FileInfo)
    (err : Option GoString) : WalkCall :=
  match err with
  | some e => ⟨none, [], .err e⟩
  | none =>
    if ¬ info.IsDir ∧ Ext path = str ".md" then
      match ProcessFile w path templateDir outputDir with
      | (tr, .nil) => ⟨some (path, templateDir, outputDir), tr, .nil⟩
      | (tr, .err e) =>
        ⟨some (path, templateDir, outputDir),
          tr ++ [.logPrintf (str "ÉCHEC du traitement de " ++ path ++ str ": " ++ e)], .nil⟩
      | (tr, .panic) => ⟨some (path, templateDir, outputDir), tr, .panic⟩
    else ⟨none, [], .nil⟩

/-! ## Worlds of the concrete runs -/

/-- A world for concrete runs: every file read holds `doc`, the decoder answers
`metadata`, the converter leaves its input as it is and no call fails. -/
def quietWorld (doc : GoString) (metadata : Metadata) : World where
  ReadFile := fun _ => .ok doc
  Unmarshal := fun _ => .ok metadata
  ToHTML := fun b => b
  ParseFiles := fun _ => none
  MkdirAll := fun _ => none
  Create := fun _ => none
  ExecuteTemplate := fun _ _ _ _ => none

/-- The marker `---` is three bytes `0x2d`. -/
theorem str_marker : str "---" = [45, 45, 45] := by decide

/-- Nothing is found exactly when `sep` does not occur in `s`. -/
theorem indexNat_eq_none {sep : GoString} :
    ∀ {s : GoString}, indexNat sep s = none ↔ ¬ sep <:+: s
  | [] => by
    by_cases h : sep = [] <;> simp [indexNat, h]
  | c :: t => by
    have ih := @indexNat_eq_none sep t
    rw [List.infix_cons_iff]
    by_cases hp : sep <+: c :: t
    · simp [indexNat, hp]
    · cases hi : indexNat sep t with
      | none => simp [indexNat, hp, hi, ih.mp hi]
      | some i =>
        have : sep <:+: t := by
          by_contra hn
          rw [ih.mpr hn] at hi
          cases hi
        simp [indexNat, hp, hi, this]

/-- The index found is the least position at which `sep` begins. -/
theorem indexNat_eq_some {sep : GoString} :
    ∀ {s : GoString} {i : Nat}, indexNat sep s = some i ↔
      (i ≤ s.length ∧ sep <+: s.drop i ∧ ∀ j, j < i → ¬ sep <+: s.drop j)
  | [], i => by
    by_cases h : sep = []
    · subst h
      simp only [indexNat, if_true, Option.some.injEq, List.length_nil, Nat.le_zero_eq,
        List.drop_nil, List.nil_prefix, true_and]
      constructor
      · intro h; subst h; simp
      · intro h; exact h.1.symm
    · simp only [indexNat, h, if_false, List.length_nil, Nat.le_zero_eq, List.drop_nil,
        List.prefix_nil, false_and, and_false, reduceCtorEq]
  | c :: t, i => by
    have ih := fun k => @indexNat_eq_some sep t k
    by_cases hp : sep <+: c :: t
    · simp only [indexNat, hp, if_true, Option.some.injEq]
      constructor
      · intro h; subst h; simp [hp]
      · rintro ⟨_, _, hmin⟩
        by_contra hne
        have hpos : 0 < i := Nat.pos_of_ne_zero (fun h => hne h.symm)
        exact hmin 0 hpos (by simpa using hp)
    · cases hi : indexNat sep t with
      | none =>
        simp only [indexNat, hp, if_false, hi, false_iff, reduceCtorEq]
        rintro ⟨hle, hpre, _⟩
        have hnt : ¬ sep <:+: t := indexNat_eq_none.mp hi
        cases i with
        | zero => exact hp (by simpa using hpre)
        | succ k =>
          apply hnt
          simp only [List.drop_succ_cons] at hpre
          exact hpre.isInfix.trans (List.drop_suffix k t).isInfix
      | some k =>
        simp only [indexNat, hp, if_false, hi, Option.some.injEq]
        obtain ⟨hk1, hk2, hk3⟩ := (ih k).mp hi
        constructor
        · intro h; subst h
          refine ⟨by simpa using hk1, by simpa using hk2, ?_⟩
          intro j hj
          cases j with
          | zero => simpa using hp
          | succ j => simpa using hk3 j (by omega)
        · rintro ⟨hle, hpre, hmin⟩
          cases i with
          | zero => exact absurd (by simpa using hpre) hp
          | succ m =>
            have hm : indexNat sep t = some m := by
              rw [ih m]
              refine ⟨by simpa using hle, by simpa using hpre, ?_⟩
              intro j hj
              simpa using hmin (j + 1) (by omega)
            rw [hi] at hm
            cases hm
            rfl

theorem Index_of_some {s sep : GoString} {i : Nat} (h : indexNat sep s = some i) :
    Index s sep = (i : Int) := by
  simp [Index, h]

theorem Index_of_none {s sep : GoString} (h : indexNat sep s = none) : Index s sep = -1 := by
  simp [Index, h]

theorem indexNat_eq_zero {s sep : GoString} : indexNat sep s = some 0 ↔ sep <+: s := by
  rw [indexNat_eq_some]
  simp

theorem indexNat_bound {s sep : GoString} {i : Nat} (h : indexNat sep s = some i) :
    i + sep.length ≤ s.length := by
  obtain ⟨hle, hpre, _⟩ := indexNat_eq_some.mp h
  have := hpre.length_le
  simp only [List.length_drop] at this
  omega

theorem marker_prefix_length {s : GoString} (h : str "---" <+: s) : 3 ≤ s.length := by
  have := h.length_le
  simpa [str_marker] using this

theorem sliceFrom_of_le (s : GoString) (n : Nat) (h : n ≤ s.length) :
    sliceFrom s (n : Int) = some (s.drop n) := by
  simp [sliceFrom, h]

theorem slice_of_le (s : GoString) (lo hi : Nat) (h1 : lo ≤ hi) (h2 : hi ≤ s.length) :
    slice s (lo : Int) (hi : Int) = some ((s.take hi).drop lo) := by
  simp [slice, h1, h2]

/-- On a document shorter than two bytes `content[yamlStart+3:]` is `content[2:]`, out of
range. -/
theorem extractFrontMatter_short (fp content : GoString) (hlen : content.length < 2) :
    extractFrontMatter fp content = none := by
  have hnone : indexNat (str "---") content = none := by
    rw [indexNat_eq_none]
    intro h
    have := h.length_le
    simp [str_marker] at this
    omega
  have h2 : sliceFrom content 2 = none := by
    simp only [sliceFrom]
    rw [if_neg]
    omega
  simp only [extractFrontMatter, Index_of_none hnone]
  norm_num
  simp [h2]

/-! ## Facts about the front matter extraction -/

/-- The metadata branch: `---` at offset 0 and the next `---` at index `k + 1` of the text
after offset 3. -/
theorem extractFrontMatter_found (fp content : GoString) (k : Nat)
    (h0 : str "---" <+: content)
    (hk : indexNat (str "---") (content.drop 3) = some (k + 1)) :
    extractFrontMatter fp content
      = some ⟨(content.take (k + 4)).drop 3, content.drop (k + 7), []⟩ := by
  have hstart : Index content (str "---") = 0 := by
    rw [Index_of_some (indexNat_eq_zero.mpr h0)]; rfl
  have hlen := marker_prefix_length h0
  have hb := indexNat_bound hk
  simp only [str_marker, List.length_drop, List.length_cons, List.length_nil] at hb
  have hs1 : sliceFrom content ((0 : Int) + 3) = some (content.drop 3) := by
    have := sliceFrom_of_le content (3) hlen
    simpa using this
  have hend : Index (content.drop 3) (str "---") = ((k + 1 : Nat) : Int) := Index_of_some hk
  have hs2 : slice content ((0 : Int) + 3) (((k + 1 : Nat) : Int) + 3)
      = some ((content.take (k + 4)).drop 3) := by
    have := slice_of_le content (3) (k + 4) (by omega) (by omega)
    simpa [Nat.cast_add, add_assoc] using this
  have hs3 : sliceFrom content (((k + 1 : Nat) : Int) + 6) = some (content.drop (k + 7)) := by
    have := sliceFrom_of_le content (k + 7) (by omega)
    simpa [Nat.cast_add, add_assoc] using this
  simp only [extractFrontMatter, hstart, hs1, Option.some_bind, hend, hs2, hs3]
  rw [if_pos]
  exact ⟨trivial, by omega⟩

/-- The other branch, on documents of at least two bytes. -/
theorem extractFrontMatter_not_found (fp content : GoString) (hlen : 2 ≤ content.length)
    (h : ¬ (str "---" <+: content ∧ ∃ k, indexNat (str "---") (content.drop 3) = some (k + 1))) :
    extractFrontMatter fp content = some ⟨[], content, [warning fp]⟩ := by
  cases hi : indexNat (str "---") content with
  | none =>
    have hs : sliceFrom content ((-1 : Int) + 3) = some (content.drop 2) := by
      have := sliceFrom_of_le content (2) hlen
      simpa using this
    simp only [extractFrontMatter, Index_of_none hi, hs, Option.some_bind]
    rw [if_neg]
    omega
  | some i =>
    have hb := indexNat_bound hi
    simp only [str_marker, List.length_cons, List.length_nil] at hb
    have hs : sliceFrom content ((i : Int) + 3) = some (content.drop (i + 3)) := by
      have := sliceFrom_of_le content (i + 3) (by omega)
      simpa using this
    simp only [extractFrontMatter, Index_of_some hi, hs, Option.some_bind]
    rw [if_neg]
    rintro ⟨hz, hpos⟩
    have hi0 : i = 0 := by omega
    subst hi0
    apply h
    refine ⟨indexNat_eq_zero.mp hi, ?_⟩
    cases hk : indexNat (str "---") (content.drop 3) with
    | none =>
      simp only [Nat.zero_add] at hpos
      rw [Index_of_none hk] at hpos
      omega
    | some j =>
      simp only [Nat.zero_add] at hpos
      rw [Index_of_some hk] at hpos
      exact ⟨j - 1, by congr; omega⟩

theorem indexNat_append_marker (m rest : GoString)
    (hfirst : ∀ j, j < m.length → ¬ str "---" <+: (m ++ (str "---" ++ rest)).drop j) :
    indexNat (str "---") (m ++ (str "---" ++ rest)) = some m.length := by
  rw [indexNat_eq_some]
  refine ⟨by simp, ?_, hfirst⟩
  rw [List.drop_left]
  exact List.prefix_append _ _

theorem drop_marker_append (s : GoString) : (str "---" ++ s).drop 3 = s := by
  simp [str_marker]

theorem decodeMetadata_empty (w : World) (fp : GoString) :
    decodeMetadata w fp [] = ([], .ok ⟨[]⟩) := by
  simp [decodeMetadata]

theorem extraction_of_not_found (w : World) (fp content : GoString)
    (h : extractFrontMatter fp content = some ⟨[], content, [warning fp]⟩) :
    extraction w fp content = ([.logPrintf (warning fp)], .ok (⟨[]⟩, content)) := by
  simp [extraction, h, decodeMetadata_empty]

/-- A document of at least two bytes that does not begin with `---` is passed on whole,
with the default metadata and without a call of the decoder. -/
theorem extraction_without_leading_marker (w : World) (fp content : GoString)
    (hlen : 2 ≤ content.length) (h : ¬ str "---" <+: content) :
    extraction w fp content = ([.logPrintf (warning fp)], .ok (⟨[]⟩, content)) :=
  extraction_of_not_found w fp content
    (extractFrontMatter_not_found fp content hlen (fun hc => h hc.1))

/-- C7: a document that contains `---` (first at the end of `pre`) and has no further
`---` after the end of that first occurrence has no metadata block: extraction ends
without error, the only effect is the warning (the decoder is not called), the metadata
is the default one and the body is the whole document. -/
theorem C7_single_marker_is_body (w : World) (fp pre post : GoString)
    (hfirst : ∀ j, j < pre.length → ¬ str "---" <+: (pre ++ (str "---" ++ post)).drop j)
    (hno : ¬ str "---" <:+: post) :
    extraction w fp (pre ++ (str "---" ++ post))
      = ([.logPrintf (warning fp)], .ok (⟨[]⟩, pre ++ (str "---" ++ post))) := by
  apply extraction_of_not_found
  apply extractFrontMatter_not_found
  · simp only [str_marker, List.length_append, List.length_cons, List.length_nil]
    omega
  · rintro ⟨hpre, k, hk⟩
    have hpre0 : pre = [] := by
      cases pre with
      | nil => rfl
      | cons c t => exact absurd (by simpa using hpre) (hfirst 0 (by simp))
    subst hpre0
    rw [List.nil_append, drop_marker_append] at hk
    have := indexNat_eq_none.mpr hno
    rw [this] at hk
    cases hk

/-- C7 at `# Notes\n---\ntitle: Hello\n`, with a decoder that would answer a title. -/
theorem C7_single_marker_is_body_witness :
    extraction (quietWorld [] ⟨str "never decoded"⟩) (str "content/a.md")
        (str "# Notes\n" ++ (str "---" ++ str "\ntitle: Hello\n"))
      = ([.logPrintf (warning (str "content/a.md"))],
          .ok (⟨[]⟩, str "# Notes\n" ++ (str "---" ++ str "\ntitle: Hello\n"))) :=
  C7_single_marker_is_body _ _ (str "# Notes\n") (str "\ntitle: Hello\n")
    (by decide) (by decide)

/-- C3 (amended): when the document is `---`, a text `m`, `---` and `rest`, where the
second `---` is the first one found from offset 3 on, then a non-empty `m` is the
metadata block and `rest` (not the whole document) is the body; an empty `m` (document
beginning `------`) gives no metadata block and the whole document as body. -/
theorem C3_block_between_markers (fp m rest : GoString)
    (hfirst : ∀ j, j < m.length → ¬ str "---" <+: (m ++ (str "---" ++ rest)).drop j) :
    (m ≠ [] →
      extractFrontMatter fp (str "---" ++ (m ++ (str "---" ++ rest))) = some ⟨m, rest, []⟩
        ∧ rest ≠ str "---" ++ (m ++ (str "---" ++ rest)))
    ∧ (m = [] →
      extractFrontMatter fp (str "---" ++ (m ++ (str "---" ++ rest)))
        = some ⟨[], str "---" ++ (m ++ (str "---" ++ rest)), [warning fp]⟩) := by
  have hidx := indexNat_append_marker m rest hfirst
  constructor
  · intro hm
    obtain ⟨k, hk⟩ : ∃ k, m.length = k + 1 := by
      cases m with
      | nil => exact absurd rfl hm
      | cons c t => exact ⟨t.length, rfl⟩
    constructor
    · have h0 : str "---" <+: str "---" ++ (m ++ (str "---" ++ rest)) := List.prefix_append _ _
      have hk2 : indexNat (str "---") ((str "---" ++ (m ++ (str "---" ++ rest))).drop 3)
          = some (k + 1) := by
        rw [drop_marker_append, hidx, hk]
      rw [extractFrontMatter_found fp _ k h0 hk2]
      have e1 : ((str "---" ++ (m ++ (str "---" ++ rest))).take (k + 4)).drop 3 = m := by
        rw [List.drop_take]
        rw [drop_marker_append]
        have : k + 4 - 3 = m.length := by omega
        rw [this, List.take_left]
      have e2 : (str "---" ++ (m ++ (str "---" ++ rest))).drop (k + 7) = rest := by
        have : k + 7 = 3 + (m.length + 3) := by omega
        rw [this, ← List.drop_drop, drop_marker_append, ← List.drop_drop, List.drop_left,
          drop_marker_append]
      rw [e1, e2]
    · intro heq
      have := congrArg List.length heq
      simp only [List.length_append, str_marker, List.length_cons, List.length_nil] at this
      omega
  · intro hm
    subst hm
    apply extractFrontMatter_not_found
    · simp only [str_marker, List.length_append, List.length_cons, List.length_nil]
      omega
    · rintro ⟨_, k, hk⟩
      rw [drop_marker_append, hidx] at hk
      simp at hk

/-- C3 (amended) at `---\ntitle: Hello\n---\n# Hi`. -/
theorem C3_block_between_markers_witness :
    extractFrontMatter (str "content/a.md")
        (str "---" ++ (str "\ntitle: Hello\n" ++ (str "---" ++ str "\n# Hi")))
      = some ⟨str "\ntitle: Hello\n", str "\n# Hi", []⟩ :=
  ((C3_block_between_markers (str "content/a.md") (str "\ntitle: Hello\n") (str "\n# Hi")
    (by decide)).1 (by decide)).1

/-- C3 (as stated) fails: `------\n# Hi` has `---` at offset 0 and again at offset 3, and
yet no metadata block is recognised: the warning is logged and the whole document is
the body. -/
theorem C3_counterexample :
    str "---" <+: str "------\n# Hi"
      ∧ str "---" <+: (str "------\n# Hi").drop 3
      ∧ extractFrontMatter (str "content/a.md") (str "------\n# Hi")
          = some ⟨[], str "------\n# Hi", [warning (str "content/a.md")]⟩ := by
  decide

theorem prefix_of_prefix_drop_take {sep s : GoString} {j n : Nat}
    (h : sep <+: (s.take n).drop j) : sep <+: s.drop j := by
  rw [List.drop_take] at h
  exact h.trans (List.take_prefix _ _)

theorem exists_prefix_drop_of_infix {sep s : GoString} (h : sep <:+: s) :
    ∃ j, j + sep.length ≤ s.length ∧ sep <+: s.drop j := by
  obtain ⟨a, b, hab⟩ := h
  refine ⟨a.length, ?_, ?_⟩
  · rw [← hab]; simp
  · rw [← hab, List.append_assoc, List.drop_left]
    exact List.prefix_append _ _

/-- The split made in the metadata branch, in terms of the document and of the index
`k + 1` of the second marker in the text after offset 3. -/
theorem found_split (content : GoString) (k : Nat) (h0 : str "---" <+: content)
    (hk : indexNat (str "---") (content.drop 3) = some (k + 1)) :
    (content.take (k + 4)).drop 3 ≠ []
      ∧ ¬ str "---" <:+: (content.take (k + 4)).drop 3
      ∧ content = str "---" ++ ((content.take (k + 4)).drop 3
          ++ (str "---" ++ content.drop (k + 7))) := by
  have hb := indexNat_bound hk
  simp only [str_marker, List.length_drop, List.length_cons, List.length_nil] at hb
  obtain ⟨_, hpre, hmin⟩ := indexNat_eq_some.mp hk
  have hmeta : (content.take (k + 4)).drop 3 = (content.drop 3).take (k + 1) := by
    rw [List.drop_take]
    rfl
  refine ⟨?_, ?_, ?_⟩
  · intro hnil
    have := congrArg List.length hnil
    simp only [List.length_drop, List.length_take, List.length_nil] at this
    omega
  · intro hin
    rw [hmeta] at hin
    obtain ⟨j, hj, hpj⟩ := exists_prefix_drop_of_infix hin
    simp only [str_marker, List.length_take, List.length_drop, List.length_cons,
      List.length_nil] at hj
    have hj2 : j < k + 1 := by omega
    exact hmin j hj2 (prefix_of_prefix_drop_take hpj)
  · have e0 : content = content.take 3 ++ content.drop 3 := (List.take_append_drop 3 content).symm
    have e1 : content.take 3 = str "---" := by
      have := List.prefix_iff_eq_take.mp h0
      simpa [str_marker] using this.symm
    have e2 : content.drop 3 = (content.drop 3).take (k + 1) ++ (content.drop 3).drop (k + 1) :=
      (List.take_append_drop (k + 1) (content.drop 3)).symm
    have e3 : (content.drop 3).drop (k + 1) = str "---" ++ content.drop (k + 7) := by
      have := List.prefix_iff_eq_append.mp hpre
      rw [← this]
      congr 1
      simp only [str_marker, List.length_cons, List.length_nil, List.drop_drop]
      congr 1
      omega
    rw [hmeta]
    calc content = content.take 3 ++ content.drop 3 := e0
      _ = str "---" ++ content.drop 3 := by rw [e1]
      _ = str "---" ++ ((content.drop 3).take (k + 1) ++ (content.drop 3).drop (k + 1)) := by
            rw [← e2]
      _ = _ := by rw [e3]

/-- C9: the metadata branch (the one that logs no warning) is taken exactly when the
document starts with `---` and `strings.Index` finds `---` at a strictly positive index
in the text after offset 3; there the metadata text is non-empty, holds no `---`, and the
document is `---`, the metadata text, `---` and the body, in this order. -/
theorem C9_partition (fp content : GoString) :
    ((∃ fm, extractFrontMatter fp content = some fm ∧ fm.logs = [])
        ↔ (str "---" <+: content ∧ 0 < Index (content.drop 3) (str "---")))
    ∧ (∀ fm, extractFrontMatter fp content = some fm → fm.logs = [] →
        fm.yamlMetadata ≠ [] ∧ ¬ str "---" <:+: fm.yamlMetadata
          ∧ content = str "---" ++ (fm.yamlMetadata ++ (str "---" ++ fm.markdownContent))) := by
  by_cases hc : str "---" <+: content ∧ ∃ k, indexNat (str "---") (content.drop 3) = some (k + 1)
  · obtain ⟨h0, k, hk⟩ := hc
    have hfound := extractFrontMatter_found fp content k h0 hk
    constructor
    · constructor
      · intro _
        refine ⟨h0, ?_⟩
        rw [Index_of_some hk]
        omega
      · intro _
        exact ⟨_, hfound, rfl⟩
    · intro fm hfm _
      rw [hfound] at hfm
      cases hfm
      exact found_split content k h0 hk
  · have hwarn : ∀ fm, extractFrontMatter fp content = some fm → fm.logs ≠ [] := by
      intro fm hfm
      by_cases hlen : 2 ≤ content.length
      · rw [extractFrontMatter_not_found fp content hlen hc] at hfm
        cases hfm
        simp
      · rw [extractFrontMatter_short fp content (by omega)] at hfm
        cases hfm
    constructor
    · constructor
      · rintro ⟨fm, hfm, hl⟩
        exact absurd hl (hwarn fm hfm)
      · rintro ⟨h0, hpos⟩
        exfalso
        apply hc
        refine ⟨h0, ?_⟩
        cases hk : indexNat (str "---") (content.drop 3) with
        | none =>
          rw [Index_of_none hk] at hpos
          omega
        | some j =>
          rw [Index_of_some hk] at hpos
          exact ⟨j - 1, by congr; omega⟩
    · intro fm hfm hl
      exact absurd hl (hwarn fm hfm)

/-- C9 at `---\ntitle: Hello\n---\n# Hi`: the four parts give the document back. -/
theorem C9_partition_witness :
    str "---\ntitle: Hello\n---\n# Hi"
      = str "---" ++ (str "\ntitle: Hello\n" ++ (str "---" ++ str "\n# Hi")) :=
  ((C9_partition (str "content/a.md") (str "---\ntitle: Hello\n---\n# Hi")).2
    ⟨str "\ntitle: Hello\n", str "\n# Hi", []⟩ (by decide) rfl).2.2

/-- C10: extraction panics exactly on documents shorter than two bytes; on every longer
document `content[yamlStart+3:]` is within bounds, and so are
`content[yamlStart+3:yamlEnd+3]` and `contentBytes[yamlEnd+6:]` whenever the metadata
branch evaluates them. -/
theorem C10_slice_bounds (fp content : GoString) :
    (extractFrontMatter fp content = none ↔ content.length < 2)
    ∧ (2 ≤ content.length →
        ∃ rest, sliceFrom content (Index content (str "---") + 3) = some rest
          ∧ (Index content (str "---") = 0 ∧ Index rest (str "---") > 0 →
              (slice content (Index content (str "---") + 3)
                  (Index rest (str "---") + 3)).isSome
                ∧ (sliceFrom content (Index rest (str "---") + 6)).isSome)) := by
  constructor
  · constructor
    · intro hnone
      by_contra hlen
      have hlen2 : 2 ≤ content.length := by omega
      by_cases hc : str "---" <+: content
          ∧ ∃ k, indexNat (str "---") (content.drop 3) = some (k + 1)
      · obtain ⟨h0, k, hk⟩ := hc
        rw [extractFrontMatter_found fp content k h0 hk] at hnone
        cases hnone
      · rw [extractFrontMatter_not_found fp content hlen2 hc] at hnone
        cases hnone
    · exact extractFrontMatter_short fp content
  · intro hlen
    cases hi : indexNat (str "---") content with
    | none =>
      refine ⟨content.drop 2, ?_, ?_⟩
      · rw [Index_of_none hi]
        have := sliceFrom_of_le content (2) hlen
        simpa using this
      · rw [Index_of_none hi]
        rintro ⟨hz, _⟩
        omega
    | some i =>
      have hb := indexNat_bound hi
      simp only [str_marker, List.length_cons, List.length_nil] at hb
      refine ⟨content.drop (i + 3), ?_, ?_⟩
      · rw [Index_of_some hi]
        have := sliceFrom_of_le content (i + 3) (by omega)
        simpa using this
      · rw [Index_of_some hi]
        rintro ⟨hz, hpos⟩
        have hi0 : i = 0 := by omega
        subst hi0
        cases hk : indexNat (str "---") (content.drop (0 + 3)) with
        | none =>
          rw [Index_of_none hk] at hpos
          omega
        | some j =>
          have hbj := indexNat_bound hk
          simp only [str_marker, List.length_drop, List.length_cons, List.length_nil] at hbj
          rw [Index_of_some hk]
          have h1 := slice_of_le content (3) (j + 3) (by omega) (by omega)
          have h2 := sliceFrom_of_le content (j + 6) (by omega)
          constructor
          · have : ((0 : Nat) : Int) + 3 = ((3 : Nat) : Int) := by norm_num
            rw [this]
            have : (j : Int) + 3 = ((j + 3 : Nat) : Int) := by norm_num
            rw [this, h1]
            rfl
          · have : (j : Int) + 6 = ((j + 6 : Nat) : Int) := by norm_num
            rw [this, h2]
            rfl

/-- C10 at `---\ntitle: Hello\n---\n# Hi`. -/
theorem C10_slice_bounds_witness :
    ∃ rest, sliceFrom (str "---\ntitle: Hello\n---\n# Hi")
        (Index (str "---\ntitle: Hello\n---\n# Hi") (str "---") + 3) = some rest
      ∧ (Index (str "---\ntitle: Hello\n---\n# Hi") (str "---") = 0
          ∧ Index rest (str "---") > 0 →
          (slice (str "---\ntitle: Hello\n---\n# Hi")
              (Index (str "---\ntitle: Hello\n---\n# Hi") (str "---") + 3)
              (Index rest (str "---") + 3)).isSome
            ∧ (sliceFrom (str "---\ntitle: Hello\n---\n# Hi")
                (Index rest (str "---") + 6)).isSome) :=
  (C10_slice_bounds (str "content/a.md") (str "---\ntitle: Hello\n---\n# Hi")).2 (by decide)

/-- C1 (the code fails it): on the empty document and on a document of one byte, which
have no `---` at offset 0, extraction panics in `content[yamlStart+3:]` (that is
`content[2:]`) in place of answering the whole document; a run of `ProcessFile` on an
empty file ends in that panic right after the file is read. -/
theorem C1_short_document_panics :
    (∀ (w : World) (fp : GoString), extraction w fp [] = ([], .panic))
    ∧ (∀ (w : World) (fp : GoString) (b : UInt8), extraction w fp [b] = ([], .panic))
    ∧ ProcessFile (quietWorld [] ⟨[]⟩) (str "content/empty.md") (str "templates") (str "public")
        = ([.readFile (str "content/empty.md")], .panic) := by
  refine ⟨?_, ?_, ?_⟩
  · intro w fp
    simp [extraction, extractFrontMatter_short fp [] (by simp)]
  · intro w fp b
    simp [extraction, extractFrontMatter_short fp [b] (by simp)]
  · decide

/-- C2 (the code fails it): for `---\ntitle: Hello\n---\n# Hi` the body starts at offset
`yamlEnd+6`, right after the second `---`, and keeps the line break that follows it: the
converter receives `\n# Hi`, not `# Hi`. -/
theorem C2_body_keeps_line_break :
    (∀ fp : GoString, extractFrontMatter fp (str "---\ntitle: Hello\n---\n# Hi")
        = some ⟨str "\ntitle: Hello\n", str "\n# Hi", []⟩)
    ∧ Effect.markdownToHTML (str "\n# Hi") ∈
        (ProcessFile (quietWorld (str "---\ntitle: Hello\n---\n# Hi") ⟨str "Hello"⟩)
          (str "content/hello.md") (str "templates") (str "public")).1
    ∧ Effect.markdownToHTML (str "# Hi") ∉
        (ProcessFile (quietWorld (str "---\ntitle: Hello\n---\n# Hi") ⟨str "Hello"⟩)
          (str "content/hello.md") (str "templates") (str "public")).1 := by
  refine ⟨?_, ?_, ?_⟩
  · intro fp
    exact extractFrontMatter_found fp (str "---\ntitle: Hello\n---\n# Hi") 13
      (by decide) (by decide)
  · decide
  · decide

/-! ## Facts about the walk callback and the returned errors -/

/-- A traversal error is handed back and `ProcessFile` is not called. -/
theorem walkFn_traversal_error (w : World) (td od path : GoString) (info : FileInfo)
    (e : GoString) : walkFn w td od path info (some e) = ⟨none, [], .err e⟩ := rfl

/-- With a `nil` traversal error `ProcessFile` is called exactly for the entries that are
not directories and have the extension `.md`. -/
theorem walkFn_processed (w : World) (td od path : GoString) (info : FileInfo) :
    (walkFn w td od path info none).processed
      = if ¬ info.IsDir ∧ Ext path = str ".md" then some (path, td, od) else none := by
  unfold walkFn
  simp only
  split
  · split <;> rfl
  · rfl

/-- With a `nil` traversal error the callback answers `nil` whenever the call of
`ProcessFile`, if one is made, returns (with or without an error). -/
theorem walkFn_ret_nil (w : World) (td od path : GoString) (info : FileInfo)
    (h : (ProcessFile w path td od).2 ≠ .panic) :
    (walkFn w td od path info none).ret = .nil := by
  unfold walkFn
  simp only
  split
  · split
    · rfl
    · rfl
    · rename_i tr heq
      rw [heq] at h
      exact absurd rfl h
  · rfl

/-- The line the callback logs for an error of `ProcessFile` names the path. -/
theorem walkFn_logs_path (w : World) (td od path : GoString) (info : FileInfo) (tr : List Effect)
    (e : GoString) (hsel : ¬ info.IsDir ∧ Ext path = str ".md")
    (h : ProcessFile w path td od = (tr, .err e)) :
    (walkFn w td od path info none).effects
        = tr ++ [.logPrintf (str "ÉCHEC du traitement de " ++ path ++ str ": " ++ e)]
      ∧ path <:+: str "ÉCHEC du traitement de " ++ path ++ str ": " ++ e := by
  constructor
  · unfold walkFn
    simp only [if_pos hsel, h]
  · exact ⟨str "ÉCHEC du traitement de ", str ": " ++ e, by simp⟩

/-- C6 (the code fails it): for the empty regular file `content/empty.md` and a `nil`
traversal error the callback calls `ProcessFile`, which panics after reading the file;
the callback does not return `nil`. -/
theorem C6_callback_panics_on_empty_file :
    walkFn (quietWorld [] ⟨[]⟩) (str "templates") (str "public") (str "content/empty.md")
        ⟨false⟩ none
      = ⟨some (str "content/empty.md", str "templates", str "public"),
          [.readFile (str "content/empty.md")], .panic⟩ := by
  decide

theorem joinSlash_cons_cons (e e2 : GoString) (es : List GoString) :
    joinSlash (e :: e2 :: es) = e ++ 47 :: joinSlash (e2 :: es) := by
  simp [joinSlash, List.intercalate]

theorem joinSlash_single (e : GoString) : joinSlash [e] = e := by
  simp [joinSlash, List.intercalate]

theorem splitElems_no_sep (e : GoString) (h : (47 : UInt8) ∉ e) : splitElems e = [e] := by
  induction e with
  | nil => rfl
  | cons c t ih =>
    have hc : c ≠ 47 := fun hc => h (by simp [hc])
    have ht : (47 : UInt8) ∉ t := fun ht => h (List.mem_cons_of_mem _ ht)
    simp [splitElems, hc, ih ht]

theorem splitElems_append_sep (e rest : GoString) (h : (47 : UInt8) ∉ e) :
    splitElems (e ++ 47 :: rest) = e :: splitElems rest := by
  induction e with
  | nil => simp [splitElems]
  | cons c t ih =>
    have hc : c ≠ 47 := fun hc => h (by simp [hc])
    have ht : (47 : UInt8) ∉ t := fun ht => h (List.mem_cons_of_mem _ ht)
    simp [splitElems, hc, ih ht]

theorem splitElems_joinSlash (e : GoString) (es : List GoString)
    (h : ∀ n ∈ e :: es, (47 : UInt8) ∉ n) : splitElems (joinSlash (e :: es)) = e :: es := by
  induction es generalizing e with
  | nil =>
    rw [joinSlash_single]
    exact splitElems_no_sep e (h e (by simp))
  | cons e2 es ih =>
    rw [joinSlash_cons_cons, splitElems_append_sep e _ (h e (by simp))]
    rw [ih e2 (fun n hn => h n (List.mem_cons_of_mem _ hn))]

theorem foldl_cleanStep_walk (rooted : Bool) (es acc : List GoString)
    (h : ∀ n ∈ es, walkElem n) :
    es.foldl (cleanStep rooted) acc = es.reverse ++ acc := by
  induction es generalizing acc with
  | nil => rfl
  | cons e es ih =>
    obtain ⟨h1, _, h3, h4⟩ := h e (by simp)
    have hstep : cleanStep rooted acc e = e :: acc := by
      simp [cleanStep, h1, h3, h4]
    rw [List.foldl_cons, hstep, ih _ (fun n hn => h n (List.mem_cons_of_mem _ hn))]
    simp

theorem joinSlash_head (e : GoString) (es : List GoString) (h : walkElem e) :
    (joinSlash (e :: es)).head? ≠ some 47 ∧ joinSlash (e :: es) ≠ [] := by
  obtain ⟨h1, h2, _, _⟩ := h
  cases e with
  | nil => exact absurd rfl h1
  | cons c t =>
    have hc : c ≠ 47 := fun hc => h2 (by simp [hc])
    cases es with
    | nil => simp [joinSlash_single, hc]
    | cons e2 es => simp [joinSlash_cons_cons, hc]

/-- For a path made of names of directory entries, `filepath.Clean` changes nothing. -/
theorem Clean_joinSlash (e : GoString) (es : List GoString) (h : ∀ n ∈ e :: es, walkElem n) :
    Clean (joinSlash (e :: es)) = joinSlash (e :: es) := by
  obtain ⟨hhead, hne⟩ := joinSlash_head e es (h e (by simp))
  have hsplit := splitElems_joinSlash e es (fun n hn => (h n hn).2.1)
  unfold Clean
  simp only [if_neg hne, hsplit, foldl_cleanStep_walk _ _ _ h, List.append_nil,
    List.reverse_reverse, if_neg hhead]

theorem walkElem_content : walkElem (str "content") := by
  refine ⟨by decide, by decide, by decide, by decide⟩

theorem walkElem_public : walkElem (str "public") := by
  refine ⟨by decide, by decide, by decide, by decide⟩

theorem takeWhile_elem (e rest : GoString) (h : (47 : UInt8) ∉ e) :
    (e ++ 47 :: rest).takeWhile (fun c => c ≠ 47) = e := by
  induction e with
  | nil => simp
  | cons c t ih =>
    have hc : c ≠ 47 := fun hc => h (by simp [hc])
    have ht : (47 : UInt8) ∉ t := fun ht => h (List.mem_cons_of_mem _ ht)
    have ih2 := ih ht
    simp only [ne_eq, decide_not] at ih2
    simp [hc, ih2]

/-- For a path below `content` made of names of directory entries, `filepath.Rel`
answers the part after `content/`. -/
theorem Rel_content (e : GoString) (es : List GoString) (h : ∀ n ∈ e :: es, walkElem n) :
    Rel (str "content") (joinSlash (str "content" :: e :: es)) = some (joinSlash (e :: es)) := by
  have hall : ∀ n ∈ str "content" :: e :: es, walkElem n := by
    intro n hn
    rcases List.mem_cons.mp hn with rfl | hn
    · exact walkElem_content
    · exact h n hn
  have hbase : Clean (str "content") = str "content" := by decide
  have htarg := Clean_joinSlash (str "content") (e :: es) hall
  have hcons := joinSlash_cons_cons (str "content") e es
  have hne : joinSlash (str "content" :: e :: es) ≠ str "content" := by
    intro heq
    have := congrArg List.length heq
    rw [hcons] at this
    simp at this
  have hhead : (joinSlash (str "content" :: e :: es)).head? ≠ some 47 :=
    (joinSlash_head _ _ walkElem_content).1
  have hloop : relLoop ((str "content").length + 1) (str "content")
      (joinSlash (str "content" :: e :: es)) = ([], joinSlash (e :: es)) := by
    have hb : (str "content").takeWhile (fun c => c ≠ 47) = str "content" := by decide
    have ht : (joinSlash (str "content" :: e :: es)).takeWhile (fun c => c ≠ 47)
        = str "content" := by
      rw [hcons]
      exact takeWhile_elem _ _ (by decide)
    have hlen : (str "content").length = 7 := by decide
    have hd1 : (str "content").drop (7 + 1) = [] := by decide
    have hd2 : (joinSlash (str "content" :: e :: es)).drop (7 + 1) = joinSlash (e :: es) := by
      rw [hcons]
      have : 7 + 1 = (str "content" ++ [47]).length := by decide
      rw [this]
      have : str "content" ++ 47 :: joinSlash (e :: es)
          = (str "content" ++ [47]) ++ joinSlash (e :: es) := by simp
      rw [this, List.drop_left]
    have hb0 : str "content" ≠ [] := by decide
    have ht0 : joinSlash (str "content" :: e :: es) ≠ [] :=
      (joinSlash_head _ _ walkElem_content).2
    rw [hlen]
    show relLoop (7 + 1) _ _ = _
    rw [relLoop]
    simp only [hb0, ht0, or_self, if_false, hb, ht, hlen, hd1, hd2, ne_eq, not_true_eq_false]
    rw [relLoop]
    simp
  unfold Rel
  simp only [hbase, htarg, if_neg hne]
  have hdot : str "content" ≠ str "." := by decide
  have hh : (str "content").head? ≠ some 47 := by decide
  simp only [if_neg hdot, hloop]
  simp [hh, hhead]
  decide

theorem Join_public (e : GoString) (es : List GoString) (h : ∀ n ∈ e :: es, walkElem n) :
    Join [str "public", joinSlash (e :: es)] = joinSlash (str "public" :: e :: es) := by
  have hall : ∀ n ∈ str "public" :: e :: es, walkElem n := by
    intro n hn
    rcases List.mem_cons.mp hn with rfl | hn
    · exact walkElem_public
    · exact h n hn
  have hp : (str "public").isEmpty = false := by decide
  have hj : joinSlash [str "public", joinSlash (e :: es)]
      = joinSlash (str "public" :: e :: es) := by
    rw [joinSlash_cons_cons, joinSlash_cons_cons, joinSlash_single]
  unfold Join
  rw [List.dropWhile_cons_of_neg (by simp [hp])]
  simp only [hj]
  exact Clean_joinSlash _ _ hall

theorem Replace_first (s old new : GoString) (i : Nat) (h : indexNat old s = some i) :
    Replace s old new 1 = s.take i ++ new ++ s.drop (i + old.length) := by
  simp [Replace, h]

/-- The page of a source path `content/<rel>`, where `<rel>` is made of names of
directory entries, is `public/<rel>` with its first `.md` replaced by `.html`. -/
theorem outputPath_walk (e : GoString) (es : List GoString) (h : ∀ n ∈ e :: es, walkElem n) :
    outputPath (joinSlash (str "content" :: e :: es)) (str "public")
      = Replace (joinSlash (str "public" :: e :: es)) (str ".md") (str ".html") 1 := by
  unfold outputPath
  simp only [Rel_content e es h, Option.getD_some, Join_public e es h]

/-- Where `.md` occurs in `public/<rel>` only as the trailing extension, the page is
`public/<rel>` with that extension replaced by `.html`. -/
theorem outputPath_trailing_md (e : GoString) (es : List GoString) (stem : GoString)
    (h : ∀ n ∈ e :: es, walkElem n)
    (hstem : joinSlash (str "public" :: e :: es) = stem ++ str ".md")
    (hfirst : ∀ j, j < stem.length → ¬ str ".md" <+: (stem ++ str ".md").drop j) :
    outputPath (joinSlash (str "content" :: e :: es)) (str "public") = stem ++ str ".html" := by
  have hidx : indexNat (str ".md") (stem ++ str ".md") = some stem.length := by
    rw [indexNat_eq_some]
    refine ⟨by simp, ?_, hfirst⟩
    rw [List.drop_left]
  rw [outputPath_walk e es h, hstem, Replace_first _ _ _ _ hidx, List.take_left]
  have : (stem ++ str ".md").drop (stem.length + (str ".md").length) = [] := by
    apply List.drop_of_length_le
    simp
  rw [this, List.append_nil]

/-- The general fact at `content/blog/post.md`. -/
theorem outputPath_trailing_md_example :
    outputPath (joinSlash [str "content", str "blog", str "post.md"]) (str "public")
      = str "public/blog/post" ++ str ".html" :=
  outputPath_trailing_md (str "blog") [str "post.md"] (str "public/blog/post")
    (by
      intro n hn
      simp only [List.mem_cons, List.mem_singleton, List.not_mem_nil, or_false] at hn
      rcases hn with rfl | rfl <;> exact ⟨by decide, by decide, by decide, by decide⟩)
    (by decide) (by decide)

/-- The fuel `Rel` gives to its loop is enough: any two amounts of fuel above the
length of `base[b0:]` give the same answer. -/
theorem relLoop_fuel (fuel : Nat) :
    ∀ (m : Nat) (b t : GoString), b.length + 1 ≤ fuel → b.length + 1 ≤ m →
      relLoop fuel b t = relLoop m b t := by
  induction fuel with
  | zero => intro m b t h; omega
  | succ n ih =>
    intro m b t h hm
    cases m with
    | zero => omega
    | succ k =>
      rw [relLoop, relLoop]
      by_cases hbt : b = [] ∨ t = []
      · simp only [if_pos hbt]
      · simp only [if_neg hbt]
        by_cases hne : t.takeWhile (fun c => c ≠ 47) ≠ b.takeWhile (fun c => c ≠ 47)
        · simp only [if_pos hne]
        · simp only [if_neg hne]
          have hb : b ≠ [] := fun hb => hbt (Or.inl hb)
          have hlen : (b.drop ((b.takeWhile (fun c => c ≠ 47)).length + 1)).length + 1
              ≤ b.length := by
            have : 0 < b.length := List.length_pos.mpr hb
            simp only [List.length_drop]
            omega
          exact ih k _ _ (by omega) (by omega)

/-- Two source paths whose only `.md` is the trailing extension and which are written
to the same page are the same path. -/
theorem outputPath_injective_trailing_md (e1 e2 : GoString) (es1 es2 : List GoString)
    (stem1 stem2 : GoString)
    (h1 : ∀ n ∈ e1 :: es1, walkElem n) (h2 : ∀ n ∈ e2 :: es2, walkElem n)
    (hs1 : joinSlash (str "public" :: e1 :: es1) = stem1 ++ str ".md")
    (hs2 : joinSlash (str "public" :: e2 :: es2) = stem2 ++ str ".md")
    (hf1 : ∀ j, j < stem1.length → ¬ str ".md" <+: (stem1 ++ str ".md").drop j)
    (hf2 : ∀ j, j < stem2.length → ¬ str ".md" <+: (stem2 ++ str ".md").drop j)
    (heq : outputPath (joinSlash (str "content" :: e1 :: es1)) (str "public")
      = outputPath (joinSlash (str "content" :: e2 :: es2)) (str "public")) :
    joinSlash (str "content" :: e1 :: es1) = joinSlash (str "content" :: e2 :: es2) := by
  rw [outputPath_trailing_md e1 es1 stem1 h1 hs1 hf1,
    outputPath_trailing_md e2 es2 stem2 h2 hs2 hf2] at heq
  have hstem : stem1 = stem2 := List.append_cancel_right heq
  have hpub : joinSlash (str "public" :: e1 :: es1) = joinSlash (str "public" :: e2 :: es2) := by
    rw [hs1, hs2, hstem]
  rw [joinSlash_cons_cons, joinSlash_cons_cons] at hpub
  have hrel : joinSlash (e1 :: es1) = joinSlash (e2 :: es2) := by
    have := List.append_cancel_left hpub
    exact List.cons_injective this
  rw [joinSlash_cons_cons, joinSlash_cons_cons, hrel]

/-- The two examples of the specification. -/
theorem outputPath_examples :
    outputPath (str "content/blog/post.md") (str "public") = str "public/blog/post.html"
    ∧ outputPath (str "content/index.md") (str "public") = str "public/index.html" := by
  decide

/-- C4 (the code fails it): `strings.Replace(outPath, ".md", ".html", 1)` rewrites the
first `.md` of the path, not the trailing extension: `content/notes.md/readme.md` is
written to `public/notes.html/readme.md`, not to `public/notes.md/readme.html`. -/
theorem C4_first_md_is_replaced :
    outputPath (str "content/notes.md/readme.md") (str "public")
        = str "public/notes.html/readme.md"
    ∧ outputPath (str "content/notes.md/readme.md") (str "public")
        ≠ str "public/notes.md/readme.html" := by
  decide

/-- C5 (the code fails it): `content/a.md.html.md` and `content/a.html.md.md` are distinct,
both have the extension `.md`, and both are written to `public/a.html.html.md`. -/
theorem C5_output_paths_collide :
    str "content/a.md.html.md" ≠ str "content/a.html.md.md"
    ∧ Ext (str "content/a.md.html.md") = str ".md"
    ∧ Ext (str "content/a.html.md.md") = str ".md"
    ∧ outputPath (str "content/a.md.html.md") (str "public") = str "public/a.html.html.md"
    ∧ outputPath (str "content/a.html.md.md") (str "public") = str "public/a.html.html.md" := by
  decide

end SSG
